import Mathlib

/-!
Verification of the coffee-roulette pairing engine (`src/pairings.py`).

The Python module is shallowly embedded below:
* people are strings; a pair is an ordered Lean product mirroring the Python
  2-tuple; a solution is a `(pairs, left_out)` product mirroring the
  `[pairs, left_out]` lists built by `get_all_possible_pairings`;
* week identifiers are produced by `strftime` with format `%Y-%U` in `coffee.py`, i.e.
  zero-padded `"YYYY-WW"` strings, on which Python string comparison agrees
  with lexicographic comparison of the `(year, week)` pair of numbers; we
  embed them as such pairs, with `Week.week` playing the role of
  `int` of the part after the dash in the week string;
* Python floats are embedded as `Rat` (all quantities here are small exact
  fractions); the Python `ZeroDivisionError` is embedded as `Option.none`.
-/

/-- A `"YYYY-WW"` week token, embedded as its year and week numbers. -/
structure Week where
  year : Nat
  week : Nat
deriving DecidableEq, Repr

/-- Python `max` keeps the current value on ties and takes the new one when it
is strictly greater; on `"YYYY-WW"` strings "greater" is lexicographic on
`(year, week)`. -/
def weekMax (a b : Week) : Week :=
  if a.year < b.year ∨ (a.year = b.year ∧ a.week < b.week) then b else a

/-- One entry of the persisted roster: the per-person record stored under
`data[people][name]`. -/
structure PersonStats where
  active : Bool
  times_left_out : Nat
  total_weeks_participated : Nat
deriving DecidableEq, Repr

/-- One week of history under `data[pairings][week]`: the pairs may live under
any of the field names `pairs`, `manual_pairs`, `auto_pairs` (a missing field
behaves exactly like an empty list in `get_historical_pairs`, so we embed all
three as lists).  Each recorded pair is a list of names, as in the JSON. -/
structure WeekRecord where
  pairs : List (List String)
  manual_pairs : List (List String)
  auto_pairs : List (List String)
deriving DecidableEq, Repr

/-- The `data` dictionary: `people` is the roster dict (an association list
here) and `pairings` the history dict keyed by week. -/
structure CoffeeData where
  people : List (String × PersonStats)
  pairings : List (Week × WeekRecord)
deriving DecidableEq, Repr

/-- The scoring weights dictionary of `score_solution`. -/
structure Weights where
  first_time_meeting : Int
  recent_pairing_penalty : Int
  old_pairing_penalty : Int
  fairness_bonus : Int
deriving DecidableEq, Repr

/-- The defaults installed by `score_solution` when `weights is None`. -/
def default_weights : Weights :=
  { first_time_meeting := 10
    recent_pairing_penalty := -5
    old_pairing_penalty := -1
    fairness_bonus := 3 }

/-- The `breakdown` dictionary returned by `score_solution`. -/
structure Breakdown where
  first_time_meetings : Nat
  recent_pairings : Nat
  old_pairings : Nat
  fairness_score : Rat
  total_pairs : Nat
deriving DecidableEq, Repr

/-- The ranker `find_best_pairings` returns either a full scoring breakdown or, on its
two degenerate branches, a dictionary holding only a `note` string. -/
inductive RankBreakdown where
  | stats (b : Breakdown)
  | note (s : String)
deriving DecidableEq, Repr

/-- Python `tuple(sorted([a, b]))` for two strings. -/
def pair_key (a b : String) : String × String :=
  if a ≤ b then (a, b) else (b, a)

/-- Python `tuple(sorted(pair))` for a recorded pair, `none` when `len(pair) != 2`
(such entries are skipped by `get_historical_pairs`). -/
def list_pair_key (pr : List String) : Option (String × String) :=
  match pr with
  | [a, b] => some (pair_key a b)
  | _ => none

/-- The history index `get_historical_pairs(data)`, viewed at one key: the list of weeks the
defaultdict holds under `key` (the empty list meaning `key not in` the dict).
For each historical week, the pair lists found under the three recognised
field names are concatenated and every 2-element pair sorting to `key`
appends that week. -/
def get_historical_pairs (data : CoffeeData) (key : String × String) : List Week :=
  data.pairings.flatMap fun wkrec =>
    ((wkrec.2.pairs ++ wkrec.2.manual_pairs ++ wkrec.2.auto_pairs).filter
      fun pr => list_pair_key pr == some key).map fun _ => wkrec.1

/-- Embedding of `generate_pairings_for_even_group(people)`: all perfect matchings of
`people`, built by pairing the first person with each other person in turn
and recursing on the rest (`remaining[:i] + remaining[i+1:]` is
`List.eraseIdx`). -/
def generate_pairings_for_even_group : List String → List (List (String × String))
  | [] => [[]]
  | [_] => []
  | [a, b] => [[(a, b)]]
  | first_person :: p :: q :: rest =>
      let remaining := p :: q :: rest
      (List.finRange remaining.length).flatMap fun i =>
        (generate_pairings_for_even_group (remaining.eraseIdx i.1)).map
          fun sub => (first_person, remaining.get i) :: sub
termination_by l => l.length
decreasing_by
  simp only [List.length_eraseIdx, remaining, List.length_cons]
  split <;> omega

/-- Embedding of `get_all_possible_pairings(people)`: the top-level enumerator, with its
explicit shortcuts for fewer than 2, exactly 2 and exactly 3 people, and the
odd/even split of the general case. -/
def get_all_possible_pairings : List String → List (List (String × String) × List String)
  | [] => []
  | [_] => []
  | [a, b] => [([(a, b)], [])]
  | [a, b, c] =>
      [([(b, c)], [a]),
       ([(a, c)], [b]),
       ([(a, b)], [c])]
  | a :: b :: c :: d :: rest =>
      let people := a :: b :: c :: d :: rest
      if people.length % 2 = 1 then
        (List.finRange people.length).flatMap fun i =>
          (generate_pairings_for_even_group (people.eraseIdx i.1)).map
            fun pairing => (pairing, [people.get i])
      else
        (generate_pairings_for_even_group people).map fun pairing => (pairing, [])

/-- The general algorithm of `get_all_possible_pairings` (its `< 2` guard and
its odd/even recursion over `generate_pairings_for_even_group`) without the
2- and 3-person shortcut branches, used to state that the shortcuts refine
the general recursion. -/
def get_all_possible_pairings_general (people : List String) :
    List (List (String × String) × List String) :=
  if _ : people.length < 2 then []
  else if people.length % 2 = 1 then
    (List.finRange people.length).flatMap fun i =>
      (generate_pairings_for_even_group (people.eraseIdx i.1)).map
        fun pairing => (pairing, [people.get i])
  else
    (generate_pairings_for_even_group people).map fun pairing => (pairing, [])

/-- The members of a pair list, in order: `[p1, p2]` for each pair. -/
def solutionMembers (s : List (String × String)) : List String :=
  s.flatMap fun pr => [pr.1, pr.2]

/-- The set of unordered pairs of a pair list. -/
def pairSet (s : List (String × String)) : Finset (Finset String) :=
  (s.map fun pr => ({pr.1, pr.2} : Finset String)).toFinset

/-- The running state of the pair-scoring loop of `score_solution`: the score so
far and the three pair counters of the breakdown. -/
structure ScoreAcc where
  score : Rat
  first_time_meetings : Nat
  recent_pairings : Nat
  old_pairings : Nat
deriving DecidableEq, Repr

/-- One iteration of the `for person1, person2 in pairs` loop of
`score_solution`: look the pair up in the history index, then either apply
the first-time reward, or compare `weeks_ago` (ordinal of `target_week`
minus ordinal of the most recent historical week) against the 2- and 4-week
thresholds. -/
def score_pair_step (data : CoffeeData) (target_week : Week) (w : Weights)
    (acc : ScoreAcc) (p : String × String) : ScoreAcc :=
  match get_historical_pairs data (pair_key p.1 p.2) with
  | [] =>
      { acc with
        score := acc.score + (w.first_time_meeting : Rat)
        first_time_meetings := acc.first_time_meetings + 1 }
  | h :: t =>
      let most_recent := t.foldl weekMax h
      let weeks_ago : Int := (target_week.week : Int) - (most_recent.week : Int)
      if weeks_ago ≤ 2 then
        { acc with
          score := acc.score + (w.recent_pairing_penalty : Rat)
          recent_pairings := acc.recent_pairings + 1 }
      else if weeks_ago ≤ 4 then
        { acc with
          score := acc.score + (w.old_pairing_penalty : Rat)
          old_pairings := acc.old_pairings + 1 }
      else acc

/-- Python `people_stats.get(person, ...)` with default empty, on the roster dict. -/
def lookup_person (people : List (String × PersonStats)) (name : String) :
    Option PersonStats :=
  (people.find? fun kv => kv.1 == name).map Prod.snd

/-- The Python chain `.get(times_left_out, 0)` composed with the lookup above. -/
def times_left_out_of (people : List (String × PersonStats)) (name : String) : Nat :=
  ((lookup_person people name).map PersonStats.times_left_out).getD 0

/-- Embedding of `score_solution(pairs, left_out, data, target_week, weights)`.  Here `none`
for the `weights` argument is the Python `None` (defaults installed inside).
The result is `Option`al because, when `left_out` is non-empty, the fairness
block divides by `len(data[people])` and an empty roster raises
`ZeroDivisionError`, embedded as `Option.none`. -/
def score_solution (pairs : List (String × String)) (left_out : List String)
    (data : CoffeeData) (target_week : Week) (weights : Option Weights) :
    Option (Rat × Breakdown) :=
  let w := weights.getD default_weights
  let acc := pairs.foldl (score_pair_step data target_week w)
    { score := 0, first_time_meetings := 0, recent_pairings := 0, old_pairings := 0 }
  if left_out.isEmpty then
    some (acc.score,
      { first_time_meetings := acc.first_time_meetings
        recent_pairings := acc.recent_pairings
        old_pairings := acc.old_pairings
        fairness_score := 0
        total_pairs := pairs.length })
  else if data.people.isEmpty then
    none
  else
    let avg_left_out : Rat :=
      (data.people.map fun kv => ((kv.2.times_left_out : Nat) : Rat)).sum /
        (data.people.length : Rat)
    let fairness : Rat :=
      (left_out.map fun person =>
        (avg_left_out - (times_left_out_of data.people person : Rat)) *
          (w.fairness_bonus : Rat)).sum
    some (acc.score + fairness,
      { first_time_meetings := acc.first_time_meetings
        recent_pairings := acc.recent_pairings
        old_pairings := acc.old_pairings
        fairness_score := fairness
        total_pairs := pairs.length })

/-- Embedding of `find_best_pairings(active_people, data, target_week, manual_pairs, top_n)`:
drop the manually paired people from the pool, handle the two degenerate
pool sizes, otherwise score every enumerated solution (with the manual pairs
prepended) under the default weights, sort stably by score descending and
keep the first `top_n`.  The `Option` propagates the possible
`ZeroDivisionError` of `score_solution`. -/
def find_best_pairings (active_people : List String) (data : CoffeeData)
    (target_week : Week) (manual_pairs : List (String × String)) (top_n : Nat) :
    Option (List (Rat × List (String × String) × List String × RankBreakdown)) :=
  let manually_paired_people := manual_pairs.flatMap fun pr => [pr.1, pr.2]
  let available_people := active_people.filter fun p => p ∉ manually_paired_people
  if available_people.length < 2 ∧ available_people.length > 0 then
    some [(0, manual_pairs, available_people,
      RankBreakdown.note "Only 1 person available for auto-pairing")]
  else if available_people.length = 0 then
    some [(0, manual_pairs, [], RankBreakdown.note "All pairs are manual")]
  else
    let all_solutions := get_all_possible_pairings available_people
    match all_solutions.mapM (fun sol =>
      (score_solution (manual_pairs ++ sol.1) sol.2 data target_week none).map
        fun sb => (sb.1, manual_pairs ++ sol.1, sol.2, RankBreakdown.stats sb.2)) with
    | none => none
    | some scored_solutions =>
        some ((scored_solutions.mergeSort fun x y => decide (y.1 ≤ x.1)).take top_n)

/-- The sample data of `test_pairing_algorithm` in `src/pairings.py` (names
shortened to first names). -/
def sample_data : CoffeeData :=
  { people :=
      [("Mary", { active := true, times_left_out := 1, total_weeks_participated := 5 }),
       ("Peter", { active := true, times_left_out := 0, total_weeks_participated := 6 }),
       ("Sarah", { active := true, times_left_out := 2, total_weeks_participated := 4 }),
       ("John", { active := true, times_left_out := 0, total_weeks_participated := 6 }),
       ("Lisa", { active := true, times_left_out := 1, total_weeks_participated := 5 })]
    pairings :=
      [(⟨2025, 29⟩, { pairs := [["Mary", "Peter"], ["Sarah", "John"]],
                      manual_pairs := [], auto_pairs := [] }),
       (⟨2025, 30⟩, { pairs := [["Mary", "Sarah"], ["Peter", "Lisa"]],
                      manual_pairs := [], auto_pairs := [] })] }

/-- A history crossing a year boundary: one pairing in week 50 of 2025, to be
scored against an early week of 2026. -/
def rollover_data : CoffeeData :=
  { people := []
    pairings := [(⟨2025, 50⟩, { pairs := [["Ann", "Bob"]],
                                manual_pairs := [], auto_pairs := [] })] }

/-- C9: for every 2-person and every 3-person input, the shortcut branches of
`get_all_possible_pairings` return exactly what the general leftover-loop
algorithm over `generate_pairings_for_even_group` returns (the very same
lists, hence in particular the same set of pair sets and leftovers). -/
theorem shortcut_branches_refine_general (a b c : String) :
    get_all_possible_pairings [a, b] = get_all_possible_pairings_general [a, b] ∧
    get_all_possible_pairings [a, b, c] = get_all_possible_pairings_general [a, b, c] := by
  constructor <;>
    simp [get_all_possible_pairings, get_all_possible_pairings_general,
      generate_pairings_for_even_group, List.finRange, List.range_succ, List.eraseIdx]

/-- C6: with an empty roster dict and a non-empty leftover list,
`score_solution` divides by `len(data[people]) = 0`: the embedded result is
`none` (the Python code raises `ZeroDivisionError`), not a `(score,
breakdown)` value with the average treated as 0 as the spec prescribes. -/
theorem score_solution_empty_roster_divides_by_zero :
    score_solution [] ["Ann"] { people := [], pairings := [] } ⟨2025, 31⟩ none = none := by
  rfl

/-- C4: per-pair contribution of `score_solution` under default weights, as a
statement about one iteration of its scoring loop: a pair with no history
entry adds `+10`; otherwise, with `weeksAgo` the ordinal of the target week
minus the ordinal of the most recent historical week (`max` of the history
list), the pair adds `-5` when `weeksAgo <= 2`, `-1` when
`3 <= weeksAgo <= 4`, and nothing when `weeksAgo > 4`. -/
theorem score_pair_step_default_cases (data : CoffeeData) (tw : Week)
    (acc : ScoreAcc) (p : String × String) :
    (get_historical_pairs data (pair_key p.1 p.2) = [] →
      (score_pair_step data tw default_weights acc p).score = acc.score + 10) ∧
    (∀ h t, get_historical_pairs data (pair_key p.1 p.2) = h :: t →
      (((tw.week : Int) - ((t.foldl weekMax h).week : Int) ≤ 2 →
          (score_pair_step data tw default_weights acc p).score = acc.score + (-5)) ∧
        (3 ≤ (tw.week : Int) - ((t.foldl weekMax h).week : Int) ∧
            (tw.week : Int) - ((t.foldl weekMax h).week : Int) ≤ 4 →
          (score_pair_step data tw default_weights acc p).score = acc.score + (-1)) ∧
        (4 < (tw.week : Int) - ((t.foldl weekMax h).week : Int) →
          (score_pair_step data tw default_weights acc p).score = acc.score))) := by
  constructor
  · intro he
    simp [score_pair_step, he, default_weights]
  · intro h t ht
    refine ⟨fun hw => ?_, fun hw => ?_, fun hw => ?_⟩ <;>
      simp only [score_pair_step, ht, default_weights] <;>
        split_ifs <;> try omega
    all_goals norm_num

/-- C4, concretely on the sample data: Mary/Lisa never met (`+10`); Mary/Peter
met in week 29, so targets 31, 33 and 36 give distances 2, 4 and 7 and
contributions `-5`, `-1` and `0`. -/
theorem score_pair_step_default_cases_witness :
    get_historical_pairs sample_data (pair_key "Mary" "Lisa") = [] ∧
    ((score_pair_step sample_data ⟨2025, 31⟩ default_weights ⟨0, 0, 0, 0⟩
        ("Mary", "Lisa")).score = 0 + 10) ∧
    ((score_pair_step sample_data ⟨2025, 31⟩ default_weights ⟨0, 0, 0, 0⟩
        ("Mary", "Peter")).score = 0 + (-5)) ∧
    ((score_pair_step sample_data ⟨2025, 33⟩ default_weights ⟨0, 0, 0, 0⟩
        ("Mary", "Peter")).score = 0 + (-1)) ∧
    ((score_pair_step sample_data ⟨2025, 36⟩ default_weights ⟨0, 0, 0, 0⟩
        ("Mary", "Peter")).score = 0) := by
  have hml : get_historical_pairs sample_data (pair_key "Mary" "Lisa") = [] := by
    simp +decide [get_historical_pairs, sample_data, list_pair_key, pair_key]
  have hmp : get_historical_pairs sample_data (pair_key "Mary" "Peter") =
      [⟨2025, 29⟩] := by
    simp +decide [get_historical_pairs, sample_data, list_pair_key, pair_key]
  refine ⟨hml, ?_, ?_, ?_, ?_⟩
  · exact (score_pair_step_default_cases sample_data ⟨2025, 31⟩ ⟨0, 0, 0, 0⟩
      ("Mary", "Lisa")).1 hml
  · exact ((score_pair_step_default_cases sample_data ⟨2025, 31⟩ ⟨0, 0, 0, 0⟩
      ("Mary", "Peter")).2 ⟨2025, 29⟩ [] hmp).1 (by decide)
  · exact (((score_pair_step_default_cases sample_data ⟨2025, 33⟩ ⟨0, 0, 0, 0⟩
      ("Mary", "Peter")).2 ⟨2025, 29⟩ [] hmp).2.1 (by decide))
  · exact (((score_pair_step_default_cases sample_data ⟨2025, 36⟩ ⟨0, 0, 0, 0⟩
      ("Mary", "Peter")).2 ⟨2025, 29⟩ [] hmp).2.2 (by decide))

/-- C10: when the most recent historical week of a pair has a strictly larger
ordinal component than the target week (year rollover), `weeks_ago` is
negative, the unbounded-below test `weeks_ago <= 2` still passes, and
`score_solution`s loop applies the recent-pairing penalty `-5`. -/
theorem score_pair_step_year_rollover (data : CoffeeData) (tw : Week)
    (acc : ScoreAcc) (p : String × String) (h : Week) (t : List Week)
    (hh : get_historical_pairs data (pair_key p.1 p.2) = h :: t)
    (hgt : tw.week < (t.foldl weekMax h).week) :
    (tw.week : Int) - ((t.foldl weekMax h).week : Int) < 0 ∧
    (score_pair_step data tw default_weights acc p).score = acc.score + (-5) := by
  have hneg : (tw.week : Int) - ((t.foldl weekMax h).week : Int) < 0 := by omega
  exact ⟨hneg, ((score_pair_step_default_cases data tw acc p).2 h t hh).1 (by omega)⟩

/-- C10, concretely: Ann/Bob met in week 50 of 2025; scoring for week 2 of
2026 computes `weeks_ago = 2 - 50 = -48 < 0` and still applies `-5`. -/
theorem score_pair_step_year_rollover_witness :
    get_historical_pairs rollover_data (pair_key "Ann" "Bob") = [⟨2025, 50⟩] ∧
    (⟨2026, 2⟩ : Week).week < (([] : List Week).foldl weekMax ⟨2025, 50⟩).week ∧
    ((⟨2026, 2⟩ : Week).week : Int) -
        ((([] : List Week).foldl weekMax ⟨2025, 50⟩).week : Int) < 0 ∧
    (score_pair_step rollover_data ⟨2026, 2⟩ default_weights ⟨0, 0, 0, 0⟩
      ("Ann", "Bob")).score = 0 + (-5) := by
  have hh : get_historical_pairs rollover_data (pair_key "Ann" "Bob") =
      [⟨2025, 50⟩] := by
    simp +decide [get_historical_pairs, rollover_data, list_pair_key, pair_key]
  obtain ⟨h1, h2⟩ := score_pair_step_year_rollover rollover_data ⟨2026, 2⟩
    ⟨0, 0, 0, 0⟩ ("Ann", "Bob") ⟨2025, 50⟩ [] hh (by decide)
  exact ⟨hh, by decide, h1, h2⟩

/-- C5: whenever the leftover list is non-empty (and the roster dict is not
empty, which would raise instead), `score_solution` returns a result whose
fairness component is the sum, over the leftover participants, of
`(average - theirTimesLeftOut) * fairnessBonus`, where the average is the
mean `times_left_out` over every registered participant in the roster dict,
active or not; the total score is the pair-loop score plus that component. -/
theorem score_solution_fairness (pairs : List (String × String)) (left_out : List String)
    (data : CoffeeData) (target_week : Week) (w : Weights)
    (hlo : left_out ≠ []) (hp : data.people ≠ []) :
    ∃ s b, score_solution pairs left_out data target_week (some w) = some (s, b) ∧
      b.fairness_score =
        (left_out.map fun person =>
          ((data.people.map fun kv => ((kv.2.times_left_out : Nat) : Rat)).sum /
              (data.people.length : Rat) -
            (times_left_out_of data.people person : Rat)) * (w.fairness_bonus : Rat)).sum ∧
      s = (pairs.foldl (score_pair_step data target_week w)
            { score := 0, first_time_meetings := 0, recent_pairings := 0,
              old_pairings := 0 }).score + b.fairness_score := by
  have h1 : left_out.isEmpty = false := by simpa using hlo
  have h2 : data.people.isEmpty = false := by simpa using hp
  refine ⟨_,
    { first_time_meetings := (pairs.foldl (score_pair_step data target_week w)
        { score := 0, first_time_meetings := 0, recent_pairings := 0,
          old_pairings := 0 }).first_time_meetings
      recent_pairings := (pairs.foldl (score_pair_step data target_week w)
        { score := 0, first_time_meetings := 0, recent_pairings := 0,
          old_pairings := 0 }).recent_pairings
      old_pairings := (pairs.foldl (score_pair_step data target_week w)
        { score := 0, first_time_meetings := 0, recent_pairings := 0,
          old_pairings := 0 }).old_pairings
      fairness_score := (left_out.map fun person =>
        ((data.people.map fun kv => ((kv.2.times_left_out : Nat) : Rat)).sum /
            (data.people.length : Rat) -
          (times_left_out_of data.people person : Rat)) * (w.fairness_bonus : Rat)).sum
      total_pairs := pairs.length },
    ?_, rfl, rfl⟩
  simp only [score_solution, Option.getD_some, h1, h2, Bool.false_eq_true, if_false]

/-- C5, concretely (Scenario E): the sample roster of 5 people has average
`times_left_out` of `4/5 = 0.8`; leaving out Sarah, whose count is 2, makes
the fairness component `(0.8 - 2) * 3 = -3.6 = -18/5`. -/
theorem score_solution_fairness_witness :
    (["Sarah"] : List String) ≠ [] ∧ sample_data.people ≠ [] ∧
    ∃ s b, score_solution [] ["Sarah"] sample_data ⟨2025, 31⟩ (some default_weights) =
        some (s, b) ∧ b.fairness_score = -18/5 ∧ s = -18/5 := by
  obtain ⟨s, b, hsb, hf, hs⟩ := score_solution_fairness [] ["Sarah"] sample_data
    ⟨2025, 31⟩ default_weights (by simp) (by simp [sample_data])
  have hval : b.fairness_score = -18/5 := by
    rw [hf]
    simp +decide [sample_data, times_left_out_of, lookup_person, default_weights,
      List.find?]
    norm_num
  refine ⟨by simp, by simp [sample_data], s, b, hsb, hval, ?_⟩
  rw [hs, hval]
  norm_num

/-- C8: the two degenerate branches of `find_best_pairings`, checked in order:
with exactly one person left available after removing the manually paired
ones, the result is the single solution made of the manual pairs with that
person as leftover, score 0 and a breakdown holding only the degenerate
note; with zero people available, it is the single solution of just the
manual pairs, empty leftover, score 0 and the all-manual note. -/
theorem find_best_pairings_degenerate (active_people : List String)
    (data : CoffeeData) (target_week : Week)
    (manual_pairs : List (String × String)) (top_n : Nat) :
    ((active_people.filter fun p =>
        p ∉ manual_pairs.flatMap fun pr => [pr.1, pr.2]).length = 1 →
      find_best_pairings active_people data target_week manual_pairs top_n =
        some [(0, manual_pairs,
          active_people.filter fun p => p ∉ manual_pairs.flatMap fun pr => [pr.1, pr.2],
          RankBreakdown.note "Only 1 person available for auto-pairing")]) ∧
    ((active_people.filter fun p =>
        p ∉ manual_pairs.flatMap fun pr => [pr.1, pr.2]).length = 0 →
      find_best_pairings active_people data target_week manual_pairs top_n =
        some [(0, manual_pairs, [], RankBreakdown.note "All pairs are manual")]) := by
  constructor <;> intro h <;> unfold find_best_pairings <;> dsimp only <;>
    split_ifs <;> first | rfl | omega

/-- C8, concretely: with Mary and Peter manually paired, a 3-person roster
leaves only Sarah available (single-person branch) and a 2-person roster
leaves nobody available (all-manual branch). -/
theorem find_best_pairings_degenerate_witness :
    (["Mary", "Peter", "Sarah"].filter fun p =>
      p ∉ [("Mary", "Peter")].flatMap fun pr => [pr.1, pr.2]) = ["Sarah"] ∧
    (["Mary", "Peter"].filter fun p =>
      p ∉ [("Mary", "Peter")].flatMap fun pr => [pr.1, pr.2]) = [] ∧
    find_best_pairings ["Mary", "Peter", "Sarah"] sample_data ⟨2025, 31⟩
        [("Mary", "Peter")] 3 =
      some [(0, [("Mary", "Peter")], ["Sarah"],
        RankBreakdown.note "Only 1 person available for auto-pairing")] ∧
    find_best_pairings ["Mary", "Peter"] sample_data ⟨2025, 31⟩
        [("Mary", "Peter")] 3 =
      some [(0, [("Mary", "Peter")], [], RankBreakdown.note "All pairs are manual")] := by
  have hf1 : (["Mary", "Peter", "Sarah"].filter fun p =>
      p ∉ [("Mary", "Peter")].flatMap fun pr => [pr.1, pr.2]) = ["Sarah"] := by
    simp +decide
  have hf0 : (["Mary", "Peter"].filter fun p =>
      p ∉ [("Mary", "Peter")].flatMap fun pr => [pr.1, pr.2]) = [] := by
    simp +decide
  refine ⟨hf1, hf0, ?_, ?_⟩
  · have := (find_best_pairings_degenerate ["Mary", "Peter", "Sarah"] sample_data
      ⟨2025, 31⟩ [("Mary", "Peter")] 3).1 (by rw [hf1]; rfl)
    rwa [hf1] at this
  · exact (find_best_pairings_degenerate ["Mary", "Peter"] sample_data
      ⟨2025, 31⟩ [("Mary", "Peter")] 3).2 (by rw [hf0]; rfl)

/-- Every element produced by a successful `Option`-valued `mapM` comes from
some element of the input list. -/
theorem mapM_some_mem {α β : Type} (f : α → Option β) :
    ∀ (l : List α) (ys : List β), l.mapM f = some ys → ∀ y ∈ ys, ∃ x ∈ l, f x = some y := by
  intro l
  induction l with
  | nil =>
      intro ys h y hy
      simp only [List.mapM_nil, pure, Option.some.injEq] at h
      subst h
      simp at hy
  | cons a l ih =>
      intro ys h y hy
      rw [List.mapM_cons] at h
      cases hfa : f a with
      | none => rw [hfa] at h; simp at h
      | some b =>
          rw [hfa] at h
          cases hml : l.mapM f with
          | none => rw [hml] at h; simp at h
          | some bs =>
              rw [hml] at h
              simp at h
              subst h
              rcases List.mem_cons.1 hy with hyb | hybs
              · exact ⟨a, List.mem_cons_self a l, by rw [hfa, hyb]⟩
              · obtain ⟨x, hx, hfx⟩ := ih bs hml y hybs
                exact ⟨x, List.mem_cons_of_mem a hx, hfx⟩

/-- C7: when at least two people remain available after removing the manually
paired participants, every solution returned by `find_best_pairings`
contains every manual pair in its pair list, the returned list is sorted by
score in descending order, and at most `top_n` solutions are returned. -/
theorem find_best_pairings_ranked (active_people : List String) (data : CoffeeData)
    (target_week : Week) (manual_pairs : List (String × String)) (top_n : Nat)
    (res : List (Rat × List (String × String) × List String × RankBreakdown))
    (h2 : 2 ≤ (active_people.filter fun p =>
        p ∉ manual_pairs.flatMap fun pr => [pr.1, pr.2]).length)
    (hres : find_best_pairings active_people data target_week manual_pairs top_n =
      some res) :
    (∀ sol ∈ res, ∀ mp ∈ manual_pairs, mp ∈ sol.2.1) ∧
    res.Pairwise (fun x y => y.1 ≤ x.1) ∧
    res.length ≤ top_n := by
  unfold find_best_pairings at hres
  dsimp only at hres
  rw [if_neg (by omega), if_neg (by omega)] at hres
  cases hm : (get_all_possible_pairings (active_people.filter fun p =>
      p ∉ manual_pairs.flatMap fun pr => [pr.1, pr.2])).mapM (fun sol =>
        (score_solution (manual_pairs ++ sol.1) sol.2 data target_week none).map
          fun sb => (sb.1, manual_pairs ++ sol.1, sol.2, RankBreakdown.stats sb.2)) with
  | none => rw [hm] at hres; simp at hres
  | some scored =>
      rw [hm] at hres
      simp only [Option.some.injEq] at hres
      subst hres
      refine ⟨?_, ?_, ?_⟩
      · intro sol hsol mp hmp
        have h1 : sol ∈ (scored.mergeSort fun x y => decide (y.1 ≤ x.1)) :=
          List.mem_of_mem_take hsol
        have h2m : sol ∈ scored := (List.mem_mergeSort).1 h1
        obtain ⟨x, hx, hfx⟩ := mapM_some_mem _ _ _ hm sol h2m
        cases hss : score_solution (manual_pairs ++ x.1) x.2 data target_week none with
        | none => rw [hss] at hfx; simp at hfx
        | some sb =>
            rw [hss] at hfx
            simp at hfx
            rw [← hfx]
            exact List.mem_append_left _ hmp
      · have hs := @List.sorted_mergeSort
          (Rat × List (String × String) × List String × RankBreakdown)
          (fun x y => decide (y.1 ≤ x.1))
          (fun a b c hab hbc => by
            simp only [decide_eq_true_eq] at *
            exact le_trans hbc hab)
          (fun a b => by
            simp only [Bool.or_eq_true, decide_eq_true_eq]
            exact le_total b.1 a.1)
          scored
        have := hs.sublist (List.take_sublist top_n _)
        exact this.imp fun hab => by simpa using hab
      · simp

/-- C7, concretely: with two available people, no manual pairs and empty
history, the ranker returns exactly one solution, trivially containing all
manual pairs, sorted, and of length at most `top_n = 3`. -/
theorem find_best_pairings_ranked_witness :
    (2 ≤ ((["a", "b"] : List String).filter fun p =>
        p ∉ ([] : List (String × String)).flatMap fun pr => [pr.1, pr.2]).length) ∧
    find_best_pairings ["a", "b"] ⟨[], []⟩ ⟨2025, 31⟩ [] 3 =
      some [(10, [("a", "b")], [], RankBreakdown.stats ⟨1, 0, 0, 0, 1⟩)] ∧
    ((∀ sol ∈ [((10 : Rat), [("a", "b")], ([] : List String),
        RankBreakdown.stats ⟨1, 0, 0, 0, 1⟩)],
      ∀ mp ∈ ([] : List (String × String)), mp ∈ sol.2.1) ∧
    ([((10 : Rat), [("a", "b")], ([] : List String),
        RankBreakdown.stats ⟨1, 0, 0, 0, 1⟩)].Pairwise fun x y => y.1 ≤ x.1) ∧
    [((10 : Rat), [("a", "b")], ([] : List String),
        RankBreakdown.stats ⟨1, 0, 0, 0, 1⟩)].length ≤ 3) := by
  have hh : (2 ≤ ((["a", "b"] : List String).filter fun p =>
      p ∉ ([] : List (String × String)).flatMap fun pr => [pr.1, pr.2]).length) := by
    simp
  have hres : find_best_pairings ["a", "b"] ⟨[], []⟩ ⟨2025, 31⟩ [] 3 =
      some [(10, [("a", "b")], [], RankBreakdown.stats ⟨1, 0, 0, 0, 1⟩)] := by
    simp [find_best_pairings, get_all_possible_pairings, score_solution,
      score_pair_step, get_historical_pairs, default_weights,
      List.mapM.loop, List.foldl]
  exact ⟨hh, hres, find_best_pairings_ranked ["a", "b"] ⟨[], []⟩ ⟨2025, 31⟩ [] 3 _ hh hres⟩

/-- Removing index `i` and putting the element back in front is a permutation
of the original list (`people[:i] + people[i+1:]` plus the chosen element). -/
theorem get_cons_eraseIdx_perm {α : Type} [DecidableEq α] (l : List α) (i : Nat)
    (hi : i < l.length) : (l[i] :: l.eraseIdx i).Perm l :=
  ((List.perm_cons_erase (List.getElem_mem hi)).trans
    ((List.erase_getElem hi).cons _)).symm

/-- The matching enumerator returns exactly `(n-1)!!` matchings on an
even-length list of length `n`. -/
theorem gen_length_eq : ∀ (n : Nat) (l : List String), l.length = n → n % 2 = 0 →
    (generate_pairings_for_even_group l).length = Nat.doubleFactorial (n - 1) := by
  intro n
  induction n using Nat.strong_induction_on with
  | _ n ih =>
    intro l hl hpar
    rcases l with _ | ⟨f, _ | ⟨p, _ | ⟨q, rest⟩⟩⟩
    · subst hl
      simp [generate_pairings_for_even_group, Nat.doubleFactorial]
    · subst hl
      simp at hpar
    · subst hl
      simp [generate_pairings_for_even_group]
    · rw [generate_pairings_for_even_group, List.length_flatMap]
      have hcomp : ∀ i ∈ List.finRange (p :: q :: rest).length,
          (List.length ∘ fun i : Fin (p :: q :: rest).length =>
            ((generate_pairings_for_even_group ((p :: q :: rest).eraseIdx i.1)).map
              fun sub => (f, (p :: q :: rest).get i) :: sub)) i =
          Function.const (Fin (p :: q :: rest).length)
            (Nat.doubleFactorial ((p :: q :: rest).length - 2)) i := by
        intro i _
        have hlt : i.1 < (p :: q :: rest).length := i.isLt
        have hlen : ((p :: q :: rest).eraseIdx i.1).length =
            (p :: q :: rest).length - 1 := by
          rw [List.length_eraseIdx, if_pos hlt]
        have hn : (p :: q :: rest).length + 1 = n := by
          simpa using hl
        have := ih ((p :: q :: rest).length - 1) (by omega) _ hlen (by omega)
        simp only [Function.comp_apply, List.length_map, Function.const_apply, this]
        congr 1
      rw [List.map_congr_left hcomp, List.map_const, List.sum_replicate,
        List.length_finRange, smul_eq_mul]
      have hn : (p :: q :: rest).length + 1 = n := by simpa using hl
      obtain ⟨m, hm⟩ : ∃ m, (p :: q :: rest).length = m + 2 := ⟨rest.length, by simp⟩
      rw [hm, show m + 2 - 2 = m from by omega, show n - 1 = m + 2 from by omega,
        Nat.doubleFactorial_add_two]

/-- Every matching returned by `generate_pairings_for_even_group` uses exactly
the members of the input list: its flattened pair members are a permutation
of the input. -/
theorem gen_mem_perm : ∀ (n : Nat) (l : List String), l.length = n →
    ∀ s ∈ generate_pairings_for_even_group l, (solutionMembers s).Perm l := by
  intro n
  induction n using Nat.strong_induction_on with
  | _ n ih =>
    intro l hl s hs
    rcases l with _ | ⟨f, _ | ⟨p, _ | ⟨q, rest⟩⟩⟩
    · simp [generate_pairings_for_even_group] at hs
      subst hs
      simp [solutionMembers]
    · simp [generate_pairings_for_even_group] at hs
    · simp [generate_pairings_for_even_group] at hs
      subst hs
      simp [solutionMembers]
    · rw [generate_pairings_for_even_group] at hs
      simp only [List.mem_flatMap, List.mem_map, List.mem_finRange] at hs
      obtain ⟨i, -, sub, hsub, rfl⟩ := hs
      have hlen : ((p :: q :: rest).eraseIdx i.1).length =
          (p :: q :: rest).length - 1 := by
        rw [List.length_eraseIdx, if_pos i.isLt]
      have hperm := ih ((p :: q :: rest).length - 1)
        (by simp at hl ⊢; omega) _ hlen sub hsub
      have h1 : solutionMembers ((f, (p :: q :: rest).get i) :: sub) =
          f :: (p :: q :: rest).get i :: solutionMembers sub := by
        simp [solutionMembers]
      rw [h1]
      refine List.Perm.cons f ?_
      refine (List.Perm.cons _ hperm).trans ?_
      have := get_cons_eraseIdx_perm (p :: q :: rest) i.1 i.isLt
      simpa [List.get_eq_getElem] using this

/-- Prepending a pair inserts its unordered form into the pair set. -/
theorem pairSet_cons (pr : String × String) (s : List (String × String)) :
    pairSet (pr :: s) = insert ({pr.1, pr.2} : Finset String) (pairSet s) := by
  simp [pairSet]

/-- A person occurring in some unordered pair of the pair set occurs among the
members of the pair list. -/
theorem mem_members_of_pair_mem_pairSet (s : List (String × String)) (x y : String)
    (h : ({x, y} : Finset String) ∈ pairSet s) : x ∈ solutionMembers s := by
  simp only [pairSet, List.mem_toFinset, List.mem_map] at h
  obtain ⟨pr, hpr, heq⟩ := h
  have hx : x ∈ ({pr.1, pr.2} : Finset String) := by
    rw [heq]
    exact Finset.mem_insert_self x {y}
  simp only [Finset.mem_insert, Finset.mem_singleton] at hx
  simp only [solutionMembers, List.mem_flatMap]
  exact ⟨pr, hpr, by rcases hx with h | h <;> simp [h]⟩

/-- Inserting the same absent element into two finsets is injective. -/
theorem insert_pairSet_inj {P : Finset String} {A B : Finset (Finset String)}
    (hA : P ∉ A) (hB : P ∉ B) (h : insert P A = insert P B) : A = B := by
  have h2 := congrArg (fun s => Finset.erase s P) h
  simpa [Finset.erase_insert hA, Finset.erase_insert hB] using h2

/-- On a duplicate-free even group, no two matchings returned by the
enumerator have the same set of unordered pairs. -/
theorem gen_pairwise_ne : ∀ (n : Nat) (l : List String), l.length = n → l.Nodup →
    (generate_pairings_for_even_group l).Pairwise
      (fun s t => pairSet s ≠ pairSet t) := by
  intro n
  induction n using Nat.strong_induction_on with
  | _ n ih =>
    intro l hl hnd
    rcases l with _ | ⟨f, _ | ⟨p, _ | ⟨q, rest⟩⟩⟩
    · simp [generate_pairings_for_even_group]
    · simp [generate_pairings_for_even_group]
    · simp [generate_pairings_for_even_group]
    · obtain ⟨hf, hrem⟩ := List.nodup_cons.1 hnd
      have hlen : ∀ i : Fin (p :: q :: rest).length,
          ((p :: q :: rest).eraseIdx i.1).length = (p :: q :: rest).length - 1 :=
        fun i => by rw [List.length_eraseIdx, if_pos i.isLt]
      have hfnot : ∀ (i : Fin (p :: q :: rest).length) sub,
          sub ∈ generate_pairings_for_even_group ((p :: q :: rest).eraseIdx i.1) →
          f ∉ solutionMembers sub := by
        intro i sub hsub hmem
        have hperm := gen_mem_perm ((p :: q :: rest).length - 1) _ (hlen i) sub hsub
        exact hf (List.eraseIdx_subset _ _ (hperm.mem_iff.1 hmem))
      rw [generate_pairings_for_even_group, List.flatMap_def, List.pairwise_flatten]
      constructor
      · intro bl hbl
        simp only [List.mem_map, List.mem_finRange] at hbl
        obtain ⟨i, -, rfl⟩ := hbl
        rw [List.pairwise_map]
        have hihs := ih ((p :: q :: rest).length - 1)
          (by simp at hl ⊢; omega) _ (hlen i) (hrem.eraseIdx i.1)
        refine hihs.imp_of_mem ?_
        intro s t hsmem htmem hne heq
        rw [pairSet_cons, pairSet_cons] at heq
        have hPs : ({f, (p :: q :: rest).get i} : Finset String) ∉ pairSet s :=
          fun hmem => hfnot i s hsmem (mem_members_of_pair_mem_pairSet s f _ hmem)
        have hPt : ({f, (p :: q :: rest).get i} : Finset String) ∉ pairSet t :=
          fun hmem => hfnot i t htmem (mem_members_of_pair_mem_pairSet t f _ hmem)
        exact hne (insert_pairSet_inj hPs hPt heq)
      · rw [List.pairwise_map]
        refine (List.nodup_finRange _).imp_of_mem ?_
        intro i j _ _ hij x hx y hy heq
        simp only [List.mem_map] at hx hy
        obtain ⟨si, hsi, rfl⟩ := hx
        obtain ⟨sj, hsj, rfl⟩ := hy
        rw [pairSet_cons, pairSet_cons] at heq
        have hPi : ({f, (p :: q :: rest).get i} : Finset String) ∈
            insert ({f, (p :: q :: rest).get j} : Finset String) (pairSet sj) := by
          rw [← heq]
          exact Finset.mem_insert_self _ _
        rcases Finset.mem_insert.1 hPi with hPP | hPmem
        · have hgi : (p :: q :: rest).get i ∈
              ({f, (p :: q :: rest).get j} : Finset String) := by
            rw [← hPP]
            exact Finset.mem_insert_of_mem (Finset.mem_singleton_self _)
          rcases Finset.mem_insert.1 hgi with hgf | hgj
          · exact hf (hgf ▸ List.get_mem _ _ _)
          · exact hij (hrem.get_inj_iff.1 (Finset.mem_singleton.1 hgj))
        · exact hfnot j sj hsj (mem_members_of_pair_mem_pairSet sj f _ hPmem)

/-- Every solution of the top-level enumerator partitions the input: its pair
members together with its leftover list are a permutation of the input. -/
theorem gapp_members_perm (l : List String) :
    ∀ s ∈ get_all_possible_pairings l, (solutionMembers s.1 ++ s.2).Perm l := by
  intro s hs
  rcases l with _ | ⟨a, _ | ⟨b, _ | ⟨c, _ | ⟨d, rest⟩⟩⟩⟩
  · simp [get_all_possible_pairings] at hs
  · simp [get_all_possible_pairings] at hs
  · simp [get_all_possible_pairings] at hs
    subst hs
    simp [solutionMembers]
  · simp only [get_all_possible_pairings, List.mem_cons,
      List.not_mem_nil, or_false] at hs
    rcases hs with rfl | rfl | rfl
    · exact List.perm_append_singleton a [b, c]
    · have h1 : solutionMembers [(a, c)] ++ [b] = [a, c, b] := by
        simp [solutionMembers]
      rw [h1]
      exact (List.Perm.swap b c []).cons a
    · have h1 : solutionMembers [(a, b)] ++ [c] = [a, b, c] := by
        simp [solutionMembers]
      rw [h1]
  · rw [get_all_possible_pairings] at hs
    by_cases hpar : (a :: b :: c :: d :: rest).length % 2 = 1
    · rw [if_pos hpar] at hs
      simp only [List.mem_flatMap, List.mem_map, List.mem_finRange] at hs
      obtain ⟨i, -, pairing, hpair, rfl⟩ := hs
      have hperm := gen_mem_perm _ _ rfl pairing hpair
      refine ((hperm.append_right _).trans ?_)
      refine (List.perm_append_singleton _ _).trans ?_
      have := get_cons_eraseIdx_perm (a :: b :: c :: d :: rest) i.1 i.isLt
      simpa [List.get_eq_getElem] using this
    · rw [if_neg hpar] at hs
      simp only [List.mem_map] at hs
      obtain ⟨pairing, hpair, rfl⟩ := hs
      simpa using gen_mem_perm _ _ rfl pairing hpair

/-- C3: on a duplicate-free input, every solution returned by
`get_all_possible_pairings` mentions each input participant exactly once
across its pairs and leftover list (so each is in exactly one pair or once
in the leftover, and none appears twice), and mentions nobody else. -/
theorem solution_coverage (l : List String) (hn : l.Nodup) :
    ∀ s ∈ get_all_possible_pairings l,
      (∀ x ∈ l, (solutionMembers s.1 ++ s.2).count x = 1) ∧
      (∀ y ∈ solutionMembers s.1 ++ s.2, y ∈ l) := by
  intro s hs
  have hperm := gapp_members_perm l s hs
  constructor
  · intro x hx
    rw [hperm.count_eq]
    exact List.count_eq_one_of_mem hn hx
  · intro y hy
    exact hperm.subset hy

/-- C3, concretely: in the solution pairing b with c and leaving a out, each
of a, b, c occurs exactly once. -/
theorem solution_coverage_witness :
    (["a", "b", "c"] : List String).Nodup ∧
    ([("b", "c")], ["a"]) ∈ get_all_possible_pairings ["a", "b", "c"] ∧
    ((∀ x ∈ (["a", "b", "c"] : List String),
      (solutionMembers [("b", "c")] ++ ["a"]).count x = 1) ∧
     (∀ y ∈ solutionMembers [("b", "c")] ++ ["a"], y ∈ (["a", "b", "c"] : List String))) := by
  have hn : (["a", "b", "c"] : List String).Nodup := by simp
  have hs : ([("b", "c")], ["a"]) ∈ get_all_possible_pairings ["a", "b", "c"] := by
    simp [get_all_possible_pairings]
  exact ⟨hn, hs, solution_coverage ["a", "b", "c"] hn _ hs⟩

/-- C1: on a duplicate-free list of even size `2k` (`k ≥ 1`), the enumerator
returns exactly `(2k-1)!!` solutions, each with empty leftover, no two of
which share the same set of unordered pairs; and on any list of fewer than
2 people it returns the empty list. -/
theorem get_all_possible_pairings_even_complete (l : List String) (hn : l.Nodup)
    (k : Nat) (hk : 1 ≤ k) (hl : l.length = 2 * k) :
    (get_all_possible_pairings l).length = Nat.doubleFactorial (2 * k - 1) ∧
    (∀ s ∈ get_all_possible_pairings l, s.2 = []) ∧
    (get_all_possible_pairings l).Pairwise (fun s t => pairSet s.1 ≠ pairSet t.1) ∧
    (∀ l2 : List String, l2.length < 2 → get_all_possible_pairings l2 = []) := by
  have hshort : ∀ l2 : List String, l2.length < 2 →
      get_all_possible_pairings l2 = [] := by
    intro l2 h
    rcases l2 with _ | ⟨x, _ | ⟨y, r⟩⟩
    · rfl
    · rfl
    · simp at h
      omega
  rcases l with _ | ⟨a, _ | ⟨b, _ | ⟨c, _ | ⟨d, rest⟩⟩⟩⟩
  · simp at hl
    omega
  · simp at hl
    omega
  · have hk1 : k = 1 := by simp at hl; omega
    subst hk1
    refine ⟨by simp [get_all_possible_pairings], ?_, ?_, hshort⟩
    · intro s hs
      simp [get_all_possible_pairings] at hs
      rw [hs]
    · simp [get_all_possible_pairings]
  · simp at hl
    omega
  · have hpar : ¬ (a :: b :: c :: d :: rest).length % 2 = 1 := by
      simp at hl ⊢
      omega
    rw [get_all_possible_pairings, if_neg hpar]
    refine ⟨?_, ?_, ?_, hshort⟩
    · rw [List.length_map, gen_length_eq _ _ rfl (by omega), hl]
    · intro s hs
      simp only [List.mem_map] at hs
      obtain ⟨pairing, -, rfl⟩ := hs
      rfl
    · rw [List.pairwise_map]
      exact (gen_pairwise_ne _ _ rfl hn).imp fun h => h

/-- C1, concretely: four people give `3!! = 3` solutions, all with empty
leftovers and pairwise distinct pair sets, and short lists give none. -/
theorem get_all_possible_pairings_even_complete_witness :
    (["a", "b", "c", "d"] : List String).Nodup ∧ 1 ≤ 2 ∧
    (["a", "b", "c", "d"] : List String).length = 2 * 2 ∧
    ((get_all_possible_pairings ["a", "b", "c", "d"]).length =
      Nat.doubleFactorial (2 * 2 - 1) ∧
     (∀ s ∈ get_all_possible_pairings ["a", "b", "c", "d"], s.2 = []) ∧
     (get_all_possible_pairings ["a", "b", "c", "d"]).Pairwise
       (fun s t => pairSet s.1 ≠ pairSet t.1) ∧
     (∀ l2 : List String, l2.length < 2 → get_all_possible_pairings l2 = [])) := by
  have hn : (["a", "b", "c", "d"] : List String).Nodup := by simp
  exact ⟨hn, by norm_num, by simp,
    get_all_possible_pairings_even_complete ["a", "b", "c", "d"] hn 2
      (by norm_num) (by simp)⟩

/-- C2: on a duplicate-free list of odd size `2k+1` (`k ≥ 1`), the enumerator
returns exactly `(2k+1) * (2k-1)!!` solutions, and each participant is the
sole leftover in exactly `(2k-1)!!` of them. -/
theorem get_all_possible_pairings_odd_complete (l : List String) (hn : l.Nodup)
    (k : Nat) (hk : 1 ≤ k) (hl : l.length = 2 * k + 1) :
    (get_all_possible_pairings l).length =
      (2 * k + 1) * Nat.doubleFactorial (2 * k - 1) ∧
    ∀ x ∈ l, (get_all_possible_pairings l).countP (fun s => s.2 == [x]) =
      Nat.doubleFactorial (2 * k - 1) := by
  rcases l with _ | ⟨a, _ | ⟨b, _ | ⟨c, _ | ⟨d, rest⟩⟩⟩⟩
  · simp only [List.length_nil] at hl
    omega
  · simp only [List.length_cons, List.length_nil] at hl
    omega
  · simp only [List.length_cons, List.length_nil] at hl
    omega
  · have hk1 : k = 1 := by
      simp only [List.length_cons, List.length_nil] at hl
      omega
    subst hk1
    obtain ⟨ha, hbc⟩ := List.nodup_cons.1 hn
    obtain ⟨hb, -⟩ := List.nodup_cons.1 hbc
    have hab : ¬ (b = a) := fun h => ha (h ▸ List.mem_cons_self _ _)
    have hba : ¬ (a = b) := fun h => hab h.symm
    have hac : ¬ (c = a) := fun h =>
      ha (h ▸ List.mem_cons_of_mem _ (List.mem_singleton_self _))
    have hca : ¬ (a = c) := fun h => hac h.symm
    have hbc2 : ¬ (c = b) := fun h => hb (h ▸ List.mem_singleton_self _)
    have hcb : ¬ (b = c) := fun h => hbc2 h.symm
    constructor
    · simp [get_all_possible_pairings, Nat.doubleFactorial]
    · intro x hx
      rcases List.mem_cons.1 hx with rfl | hx2
      · simp [get_all_possible_pairings, List.countP_cons, hab, hac,
          hba, hca, Nat.doubleFactorial]
      rcases List.mem_cons.1 hx2 with rfl | hx3
      · simp [get_all_possible_pairings, List.countP_cons, hab, hba,
          hbc2, hcb, Nat.doubleFactorial]
      rcases List.mem_cons.1 hx3 with rfl | hx4
      · simp [get_all_possible_pairings, List.countP_cons, hac, hca,
          hbc2, hcb, Nat.doubleFactorial]
      · simp at hx4
  · have hpar : (a :: b :: c :: d :: rest).length % 2 = 1 := by
      simp only [List.length_cons] at hl ⊢
      omega
    rw [get_all_possible_pairings, if_pos hpar]
    have hlenE : ∀ i : Fin (a :: b :: c :: d :: rest).length,
        ((a :: b :: c :: d :: rest).eraseIdx i.1).length =
          (a :: b :: c :: d :: rest).length - 1 :=
      fun i => by rw [List.length_eraseIdx, if_pos i.isLt]
    have hgenlen : ∀ i : Fin (a :: b :: c :: d :: rest).length,
        (generate_pairings_for_even_group
          ((a :: b :: c :: d :: rest).eraseIdx i.1)).length =
          Nat.doubleFactorial (2 * k - 1) := by
      intro i
      have hpar2 : ((a :: b :: c :: d :: rest).eraseIdx i.1).length % 2 = 0 := by
        rw [hlenE i]
        simp only [List.length_cons] at hl ⊢
        omega
      rw [gen_length_eq _ _ rfl hpar2, hlenE i]
      congr 1
      simp only [List.length_cons] at hl ⊢
      omega
    constructor
    · rw [List.length_flatMap]
      have hcomp : ∀ i ∈ List.finRange (a :: b :: c :: d :: rest).length,
          (List.length ∘ fun i : Fin (a :: b :: c :: d :: rest).length =>
            ((generate_pairings_for_even_group
              ((a :: b :: c :: d :: rest).eraseIdx i.1)).map
                fun pairing => (pairing, [(a :: b :: c :: d :: rest).get i]))) i =
          Function.const _ (Nat.doubleFactorial (2 * k - 1)) i := by
        intro i _
        simp only [Function.comp_apply, List.length_map, Function.const_apply]
        exact hgenlen i
      rw [List.map_congr_left hcomp, List.map_const, List.sum_replicate,
        List.length_finRange, smul_eq_mul, hl]
    · intro x hx
      rw [List.countP_flatMap]
      obtain ⟨i0, hi0⟩ := List.get_of_mem hx
      have hcomp : ∀ i ∈ List.finRange (a :: b :: c :: d :: rest).length,
          ((List.countP fun s => s.2 == [x]) ∘
            fun i : Fin (a :: b :: c :: d :: rest).length =>
            ((generate_pairings_for_even_group
              ((a :: b :: c :: d :: rest).eraseIdx i.1)).map
                fun pairing => (pairing, [(a :: b :: c :: d :: rest).get i]))) i =
          (fun i : Fin (a :: b :: c :: d :: rest).length =>
            if i = i0 then Nat.doubleFactorial (2 * k - 1) else 0) i := by
        intro i _
        simp only [Function.comp_apply, List.countP_map]
        by_cases hii : i = i0
        · subst hii
          rw [if_pos rfl]
          rw [← hgenlen i]
          apply List.countP_eq_length.2
          intro pairing _
          simpa using hi0
        · rw [if_neg hii]
          apply List.countP_eq_zero.2
          intro pairing _
          simp only [Function.comp_apply, beq_iff_eq, List.cons.injEq, and_true]
          intro hgx
          exact hii (hn.get_inj_iff.1 (by rw [hgx, hi0]))
      rw [List.map_congr_left hcomp, ← Fin.sum_univ_def,
        Finset.sum_ite_eq' Finset.univ i0 fun _ => Nat.doubleFactorial (2 * k - 1),
        if_pos (Finset.mem_univ i0)]

/-- C2, concretely: five people give `5 * 3!! = 15` solutions and each of the
five is the sole leftover in `3!! = 3` of them. -/
theorem get_all_possible_pairings_odd_complete_witness :
    (["a", "b", "c", "d", "e"] : List String).Nodup ∧ 1 ≤ 2 ∧
    (["a", "b", "c", "d", "e"] : List String).length = 2 * 2 + 1 ∧
    ((get_all_possible_pairings ["a", "b", "c", "d", "e"]).length =
      (2 * 2 + 1) * Nat.doubleFactorial (2 * 2 - 1) ∧
     ∀ x ∈ (["a", "b", "c", "d", "e"] : List String),
       (get_all_possible_pairings ["a", "b", "c", "d", "e"]).countP
         (fun s => s.2 == [x]) = Nat.doubleFactorial (2 * 2 - 1)) := by
  have hn : (["a", "b", "c", "d", "e"] : List String).Nodup := by simp
  exact ⟨hn, by norm_num, by simp,
    get_all_possible_pairings_odd_complete ["a", "b", "c", "d", "e"] hn 2
      (by norm_num) (by simp)⟩
